import Mathlib

/-!
Verification development for the instruction assembler in src/assembler.js.

The assembler consumes a stream of parser instructions and builds a nested
document.  JS object references are modelled by an explicit heap: a list of
nodes indexed by natural numbers.  Node 0 is the document root created by the
constructor.  The context stack holds node indices in JS order (last element
is the top of the stack).  Fallible JS operations (the in operator on a
non-object, property access on undefined, unknown-method dispatch) are
modelled with Except.  Loops whose termination is not structural (the
closeArray while loop, the preprocessing for loop with its inner buffer
absorption) take an explicit fuel argument large enough for every run, so
that all definitions compute by kernel reduction.
-/

namespace Betty

/-- Scalar or reference value stored in the document tree.  JS object
references are indices into the heap; JS numbers appear only as the result of
reading the length property of an array node. -/
inductive Val where
  | str (s : String)
  | num (n : Nat)
  | ref (i : Nat)
  deriving DecidableEq, Repr

/-- Subtype tag of an array, mirroring the hidden TYPE symbol property of
assembler.js (absent, "standard", "simple" or "freeform"). -/
inductive ArrType where
  | untyped
  | standard
  | simple
  | freeform
  deriving DecidableEq, Repr

/-- Heap node: a JS plain object (ordered association list of fields) or a JS
array carrying its TYPE tag and its elements.  String-keyed expando
properties on arrays are not modelled (never used by the assembler). -/
inductive Node where
  | obj (fields : List (String × Val))
  | arr (ty : ArrType) (elems : List Val)
  deriving DecidableEq, Repr

/-- Parser instruction: a kind string plus optional key and payload.  The JS
objects leave key and value undefined for some kinds; the model uses the
empty string for those. -/
structure Instr where
  type : String
  key : String
  value : String
  deriving DecidableEq, Repr

/-- Fatal outcomes of a run.  typeError stands for the TypeErrors the JS code
can raise (the in operator on a non-object, calling replace on undefined,
Object.defineProperty on a primitive, a class constructor invoked without
new, a non-callable getter argument); notAFunction stands for the TypeError
raised when the dispatched name resolves to undefined or to a non-function
member.  unrecognizedInstructionKind is the error the specification
postulates; the code never produces it, the constructor exists so that
claims about it can be stated.  unmodeledCall is not a JS error at all: it
marks dispatch of a kind whose invoked method the program runs without
necessarily failing, but whose resulting state (a raw string pushed as a
scope onto the context stack, or a recursive assemble call over the key
string, whose behaviour even depends on the verbose dump) the heap-and-index
state of this model cannot represent; no claim quantifies over these
kinds. -/
inductive JsError where
  | typeError
  | notAFunction (name : String)
  | unrecognizedInstructionKind
  | unmodeledCall (name : String)
  deriving DecidableEq, Repr

/-- Assembler state: heap plus context stack of node indices (JS order, the
last element is the top).  The root is always node 0. -/
structure AState where
  heap : List Node
  stack : List Nat
  deriving DecidableEq, Repr

/-- Configuration options.  verbose is read only by the log method of the JS
code, which produces console output and never touches state, so the state
transition functions below take only the two hooks; verbose gates the
assembled trace at the top level (observationally identical to the per-line
gate inside log). -/
structure Options where
  verbose : Bool
  onFieldName : String → String
  onValue : Val → String → Val

/-! ### String helpers

The JS string operations are re-implemented over the character list so that
every definition reduces in the kernel.  They agree with the JS originals on
the ASCII inputs the assembler handles. -/

/-- Whitespace test used by trim (space, tab, newline, carriage return). -/
def isWs (c : Char) : Bool :=
  c == ' ' || c == '\t' || c == '\n' || c == '\r'

/-- Model of String.prototype.trim. -/
def trimStr (s : String) : String :=
  ⟨((s.data.dropWhile isWs).reverse.dropWhile isWs).reverse⟩

/-- Trim a value when it is a string, mirroring the repeated
typeof value == string checks of the JS code. -/
def trimIfStr : Val → Val
  | .str s => .str (trimStr s)
  | v => v

/-- Splitting helper for split on a single character. -/
def splitOnCharGo (sep : Char) : List Char → List Char → List (List Char)
  | [], acc => [acc.reverse]
  | c :: cs, acc =>
    if c == sep then acc.reverse :: splitOnCharGo sep cs []
    else splitOnCharGo sep cs (c :: acc)

/-- Model of String.prototype.split with a one-character separator. -/
def splitOnChar (sep : Char) (s : String) : List String :=
  (splitOnCharGo sep s.data []).map String.mk

/-- True when the first character of the string is c, as the JS test
key[0] == c (false on the empty string, where key[0] is undefined). -/
def firstCharIs (c : Char) (s : String) : Bool :=
  match s.data with
  | c0 :: _ => c0 == c
  | [] => false

/-- Model of key.replace(the plus regex with the g flag, empty string):
removes every plus character. -/
def removePlus (s : String) : String :=
  ⟨s.data.filter (fun c => !(c == '+'))⟩

/-- Model of key.replace(leading dot-plus run regex, empty string) in
addToArray: strips the leading run of dot and plus characters. -/
def stripTag (s : String) : String :=
  ⟨s.data.dropWhile (fun c => c == '.' || c == '+')⟩

/-- Helper for stripLineLeadingBackslash: the Bool records whether the
current position is at the start of a line. -/
def slbGo : Bool → List Char → List Char
  | _, [] => []
  | atStart, c :: cs =>
    if atStart && c == '\\' then cs
    else c :: slbGo (c == '\n') cs

/-- Model of merged.replace(multiline caret-backslash regex, empty string):
removes the first backslash that occurs at the start of a line (the replace
call has no g flag, so only the first match is removed). -/
def stripLineLeadingBackslash (s : String) : String :=
  ⟨slbGo true s.data⟩

/-- Parse a string of decimal digits, used for JS numeric array indexing. -/
def charsToNat? : List Char → Option Nat
  | [] => none
  | cs =>
    if cs.all (fun c => c.isDigit) then
      some (cs.foldl (fun n c => n * 10 + (c.toNat - 48)) 0)
    else none

/-- Numeric-index view of a property key on an array. -/
def strToNat? (s : String) : Option Nat :=
  charsToNat? s.data

/-! ### Heap primitives -/

/-- The heap is a list of nodes; a Val.ref i points at position i. -/
abbrev Heap := List Node

/-- Allocate a node at the end of the heap, returning its index. -/
def alloc (h : Heap) (n : Node) : Heap × Nat :=
  (h ++ [n], h.length)

/-- First-match association lookup on object fields. -/
def objGet : List (String × Val) → String → Option Val
  | [], _ => none
  | (k0, v0) :: rest, k => if k0 == k then some v0 else objGet rest k

/-- Field assignment on object fields: replaces the first binding in place
(JS objects keep insertion order and hold each key once) or appends. -/
def setField : List (String × Val) → String → Val → List (String × Val)
  | [], k, v => [(k, v)]
  | (k0, v0) :: rest, k, v =>
    if k0 == k then (k0, v) :: rest else (k0, v0) :: setField rest k v

/-- TYPE tag of the node at index i when it is an array. -/
def arrTypeOf (h : Heap) (i : Nat) : Option ArrType :=
  match h[i]? with
  | some (.arr ty _) => some ty
  | _ => none

/-- The instanceof Array test on a heap reference. -/
def isArr (h : Heap) (i : Nat) : Bool :=
  (arrTypeOf h i).isSome

/-- Model of assignType: overwrite the TYPE tag of the array node at i.
The JS Object.defineProperty call with identical attributes is a no-op when
re-assigning the same tag, which this overwrite mirrors. -/
def setArrType (h : Heap) (i : Nat) (ty : ArrType) : Heap :=
  match h[i]? with
  | some (.arr _ es) => h.set i (.arr ty es)
  | _ => h

/-- Model of target.push(v) on the array node at i. -/
def pushElem (h : Heap) (i : Nat) (v : Val) : Heap :=
  match h[i]? with
  | some (.arr ty es) => h.set i (.arr ty (es ++ [v]))
  | _ => h

/-- Elements of the array node at i (empty when i is not an array). -/
def elemsOf (h : Heap) (i : Nat) : List Val :=
  match h[i]? with
  | some (.arr _ es) => es
  | _ => []

/-- JS truthiness of a value: empty string and zero are falsy, every object
reference is truthy. -/
def valTruthy : Val → Bool
  | .str s => !(s == "")
  | .num n => !(n == 0)
  | .ref _ => true

/-- Truthiness of a possibly-undefined value (undefined is falsy). -/
def optTruthy : Option Val → Bool
  | none => false
  | some v => valTruthy v

/-- Model of branch[k] property access (no TypeError: reading a property of
a string or number boxes silently in JS; their length and index properties
are not modelled, the assembler never reads them). -/
def propGet (h : Heap) (v : Val) (k : String) : Option Val :=
  match v with
  | .str _ => none
  | .num _ => none
  | .ref i =>
    match h[i]? with
    | some (.obj fs) => objGet fs k
    | some (.arr _ es) =>
      if k == "length" then some (.num es.length)
      else (strToNat? k).bind (fun n => es[n]?)
    | none => none

/-! ### Keypath resolver (normalizeKeypath, getPath, setPath) -/

/-- Model of normalizeKeypath: split the dotted string, discard empty
segments, apply the onFieldName hook to each segment. -/
def normalizeKeypath (onFieldName : String → String) (kp : String) : List String :=
  ((splitOnChar '.' kp).filter (fun s => !(s == ""))).map onFieldName

/-- Loop of getPath over the non-terminal segments.  Each step performs the
JS test k in branch, which throws a TypeError when branch is not an object,
and returns undefined (none) when the key is absent; the terminal step is the
expression branch and branch[terminal], which returns the falsy branch itself
without property access. -/
def getPathGo (h : Heap) : Val → List String → String → Except JsError (Option Val)
  | branch, [], t =>
    .ok (if valTruthy branch then propGet h branch t else some branch)
  | branch, k :: rest, t =>
    match branch with
    | .str _ => .error .typeError
    | .num _ => .error .typeError
    | .ref i =>
      match h[i]? with
      | some (.obj fs) =>
        match objGet fs k with
        | some v => getPathGo h v rest t
        | none => .ok none
      | some (.arr _ es) =>
        if k == "length" then getPathGo h (.num es.length) rest t
        else
          match strToNat? k with
          | some n =>
            match es[n]? with
            | some v => getPathGo h v rest t
            | none => .ok none
          | none => .ok none
      | none => .ok none

/-- Model of getPath: traverse the normalized keypath inside the given
container.  When the keypath normalizes to the empty list, the JS code pops
undefined as the terminal and evaluates branch and branch[undefined], which
looks up the property named undefined; no field of that name is ever stored,
so the lookup is modelled as looking up the literal name undefined. -/
def getPath (onFieldName : String → String) (h : Heap) (object : Val)
    (kp : String) : Except JsError (Option Val) :=
  let ks := normalizeKeypath onFieldName kp
  match ks.getLast? with
  | none => .ok (if valTruthy object then propGet h object "undefined" else some object)
  | some t => getPathGo h object ks.dropLast t

/-- Walk of setPath over the non-terminal segments, creating empty objects
for segments that are missing or whose value is not a JS object, then the
terminal assignment.  The terminal assignment trims string values and passes
the result through the onValue hook before storing.  Assigning to a scalar
receiver fails silently (non-strict JS); assigning into an array by a
non-index key or past its length would create expando properties or holes,
which are not modelled (the assembler never does this). -/
def setPathGo (onValue : Val → String → Val) (h : Heap) :
    Val → List String → String → Val → Except JsError Heap
  | branch, [], t, v =>
    let v := trimIfStr v
    let stored := onValue v t
    match branch with
    | .ref i =>
      match h[i]? with
      | some (.obj fs) => .ok (h.set i (.obj (setField fs t stored)))
      | some (.arr ty es) =>
        match strToNat? t with
        | some n => .ok (h.set i (.arr ty (es.set n stored)))
        | none => .ok h
      | none => .ok h
    | _ => .ok h
  | branch, k :: rest, t, v =>
    match branch with
    | .str _ => .error .typeError
    | .num _ => .error .typeError
    | .ref i =>
      match h[i]? with
      | some (.obj fs) =>
        match objGet fs k with
        | some (.ref j) => setPathGo onValue h (.ref j) rest t v
        | _ =>
          let (h1, nid) :=
            alloc h (.obj [])
          match h1[i]? with
          | some (.obj fs1) =>
            setPathGo onValue (h1.set i (.obj (setField fs1 k (.ref nid)))) (.ref nid) rest t v
          | _ => setPathGo onValue h1 (.ref nid) rest t v
      | some (.arr ty es) =>
        if k == "length" then .error .typeError
        else
          match strToNat? k with
          | some n =>
            match es[n]? with
            | some (.ref j) => setPathGo onValue h (.ref j) rest t v
            | some _ =>
              let (h1, nid) := alloc h (.obj [])
              setPathGo onValue (h1.set i (.arr ty (es.set n (.ref nid)))) (.ref nid) rest t v
            | none =>
              let (h1, nid) := alloc h (.obj [])
              setPathGo onValue h1 (.ref nid) rest t v
          | none =>
            let (h1, nid) := alloc h (.obj [])
            setPathGo onValue h1 (.ref nid) rest t v
      | none => .ok h

/-- Model of setPath: normalize the keypath, strip every plus character from
the terminal segment, then walk and assign.  A keypath that normalizes to the
empty list makes the JS code call replace on undefined, a TypeError. -/
def setPath (onFieldName : String → String) (onValue : Val → String → Val)
    (h : Heap) (object : Val) (kp : String) (v : Val) : Except JsError Heap :=
  let ks := normalizeKeypath onFieldName kp
  match ks.getLast? with
  | none => .error .typeError
  | some t0 => setPathGo onValue h object ks.dropLast (removePlus t0) v

/-! ### Context stack -/

/-- Context stack operations act on the stack component of the state.  The
stack is kept in JS order: the last element is the top. -/
def topId (s : AState) : Nat :=
  (s.stack.getLast?).getD 0

/-- Model of pushContext. -/
def pushContext (s : AState) (scope : Nat) : AState :=
  { s with stack := s.stack ++ [scope] }

/-- Model of popContext: remove and return the top scope; if the stack
becomes empty, reset it to the root alone; return the root when pop yielded
undefined (the scope or root fallback of the JS code). -/
def popContext (s : AState) : Nat × AState :=
  let scope := s.stack.getLast?
  let rest := s.stack.dropLast
  (scope.getD 0, { s with stack := if rest.isEmpty then [0] else rest })

/-- Model of reset: replace the stack with the root alone, then push the
supplied scope when one is given. -/
def reset (s : AState) (scope : Option Nat) : AState :=
  match scope with
  | some x => { s with stack := [0, x] }
  | none => { s with stack := [0] }

/-- Model of getTarget: a key whose first character is a dot addresses the
current top scope; any other key resets the stack and addresses the root.
Returns the possibly-reset state together with the target node index. -/
def getTarget (s : AState) (key : String) : AState × Nat :=
  if firstCharIs '.' key then (s, topId s)
  else (reset s none, 0)

/-! ### Instruction preprocessor

The preprocessing for loop of assemble (lines 117 to 205 of assembler.js).
Its state is the emitted list, the anchor (lastValue, kept as an index into
the emitted list because the JS code mutates the anchor object in place on
flush) and the accumulating text buffer.  The loop consumes at least one
instruction per iteration, so fuel equal to the stream length suffices; the
exhaustion branch is unreachable for the fuel the entry points supply. -/

structure PState where
  processed : List Instr
  lastValue : Option Nat
  buffer : List String
  deriving DecidableEq, Repr

/-- Kind of the instruction the anchor points at, if any. -/
def anchorType (p : List Instr) (lv : Option Nat) : Option String :=
  lv.bind (fun i => (p[i]?).map (fun a => a.type))

/-- Model of mergeBuffer: join the buffered strings and strip one leading
backslash at the start of a line. -/
def mergeBuffer (buffer : List String) : String :=
  stripLineLeadingBackslash (String.join buffer)

/-- Standalone buffer instruction emitted by the preprocessor (the JS object
literal has no key property; the model uses the empty string). -/
def bufInstr (v : String) : Instr :=
  ⟨"buffer", "", v⟩

/-- One pass of the preprocessing loop, returning the final state and the
diagnostic lines the log calls would print.  The trace is always computed;
verbose gating happens at the top level (the log method is observationally a
filter on these lines). -/
def preprocessGo : Nat → PState → List Instr → PState × List String
  | _, st, [] =>
    -- end of stream, lines 200 to 205: push a dangling non-blank buffer
    let merged := mergeBuffer st.buffer
    let st1 :=
      if !(trimStr merged == "") then
        { st with processed := st.processed ++ [bufInstr merged] }
      else st
    (st1, ["Clearing out dangling buffer items"])
  | 0, st, _ :: _ => (st, [])
  | fuel + 1, st, i :: rest =>
    let t := i.type
    if t == "simple" then
      if st.lastValue.isNone || anchorType st.processed st.lastValue == some "simple" then
        preprocessGo fuel ⟨st.processed ++ [i], some st.processed.length, []⟩ rest
      else
        -- demoted simple: falls through into the buffer case with key ++ value,
        -- which then greedily absorbs the following run of buffer instructions
        let run := rest.takeWhile (fun j => j.type == "buffer")
        let st1 : PState := { st with buffer := st.buffer ++ [i.key ++ i.value] ++ run.map (fun j => j.value) }
        let r := preprocessGo fuel st1 (rest.dropWhile (fun j => j.type == "buffer"))
        (r.1, "Simple item being ignored" :: "Merging buffer instructions..." :: r.2)
    else if t == "buffer" then
      let run := rest.takeWhile (fun j => j.type == "buffer")
      let st1 : PState := { st with buffer := st.buffer ++ [i.value] ++ run.map (fun j => j.value) }
      let r := preprocessGo fuel st1 (rest.dropWhile (fun j => j.type == "buffer"))
      (r.1, "Merging buffer instructions..." :: r.2)
    else if t == "value" then
      if anchorType st.processed st.lastValue == some "simple" then
        -- absorbed as literal text inside a simple run
        preprocessGo fuel { st with buffer := st.buffer ++ [i.key ++ ":" ++ i.value] } rest
      else
        let merged := mergeBuffer st.buffer
        let p1 :=
          if !(trimStr merged == "") then st.processed ++ [bufInstr merged]
          else st.processed
        let k := i.key
        let r := preprocessGo fuel ⟨p1 ++ [i], some p1.length, []⟩ rest
        (r.1, s!"Value encountered: {k}" :: r.2)
    else if t == "flush" then
      let st1 : PState :=
        if st.buffer.isEmpty then { st with buffer := [] }
        else
          let merged := mergeBuffer st.buffer
          match st.lastValue with
          | some idx =>
            if !(trimStr merged == "") then
              -- lastValue.value += merged mutates the instruction object
              -- already emitted, modelled by updating it at its index
              match st.processed[idx]? with
              | some a => ⟨st.processed.set idx { a with value := a.value ++ merged }, st.lastValue, []⟩
              | none => { st with buffer := [] }
            else
              ⟨st.processed ++ [bufInstr merged], st.lastValue, []⟩
          | none =>
            ⟨st.processed ++ [bufInstr merged], st.lastValue, []⟩
      preprocessGo fuel st1 rest
    else if t == "object" || t == "array" || t == "closeObject" || t == "closeArray" then
      -- structural instruction: push a non-blank buffer standalone, then fall
      -- through to the default case (clear the anchor and pass the
      -- instruction through)
      let merged := mergeBuffer st.buffer
      let p1 :=
        if !(trimStr merged == "") then st.processed ++ [bufInstr merged]
        else st.processed
      let k := i.key
      let r := preprocessGo fuel ⟨p1 ++ [i], none, []⟩ rest
      (r.1, s!"Encountered {t} ({k}), clearing buffer" :: r.2)
    else
      -- default case, also taken by the skipped kind: clear the anchor and
      -- pass the instruction through, leaving the buffer untouched
      preprocessGo fuel ⟨st.processed ++ [i], none, st.buffer⟩ rest

/-- Run the preprocessing pass from the initial state with sufficient fuel. -/
def preprocessT (l : List Instr) : PState × List String :=
  preprocessGo l.length ⟨[], none, []⟩ l

/-- Normalized instruction stream produced by the preprocessing pass. -/
def preprocessList (l : List Instr) : List Instr :=
  (preprocessT l).1.processed

/-! ### Document builder handlers -/

/-- State created by the Assembler constructor: heap holding the root object
at index 0, stack holding the root. -/
def initState : AState :=
  ⟨[.obj []], [0]⟩

/-- Model of addToArray (the array-append algorithm). -/
def addToArray (fn : String → String) (ov : Val → String → Val) (h : Heap)
    (target : Nat) (key : String) (v : Val) : Except JsError Heap :=
  match arrTypeOf h target with
  | some .freeform =>
    let v := trimIfStr v
    let key := stripTag key
    let (h1, rid) := alloc h (.obj [("type", .str key), ("value", v)])
    .ok (pushElem h1 target (.ref rid))
  | some .simple => .ok h
  | _ =>
    -- default branch: tag an untagged array as standard, then fan out on the
    -- last element
    let h0 := if arrTypeOf h target == some .untyped then setArrType h target .standard else h
    let es := elemsOf h0 target
    match es.getLast? with
    | none =>
      let (h1, nid) := alloc h0 (.obj [])
      let h2 := pushElem h1 target (.ref nid)
      setPath fn ov h2 (.ref nid) key (trimIfStr v)
    | some last => do
      let r ← getPath fn h0 last key
      if optTruthy r then
        let (h1, nid) := alloc h0 (.obj [])
        let h2 := pushElem h1 target (.ref nid)
        setPath fn ov h2 (.ref nid) key (trimIfStr v)
      else
        setPath fn ov h0 last key (trimIfStr v)

/-- Model of append: route to addToArray for arrays, to setPath otherwise
(with the string trim the JS code applies before the call). -/
def append (fn : String → String) (ov : Val → String → Val) (h : Heap)
    (target : Nat) (key : String) (v : Val) : Except JsError Heap :=
  if isArr h target then addToArray fn ov h target key v
  else setPath fn ov h (.ref target) key (trimIfStr v)

/-- Model of the value instruction handler.  The structured-payload guard of
the freeform branch is vacuous in this model because dispatch always passes
the string payload of the instruction, exactly as in the JS program (the
specification design notes flag that branch as likely dead code); the
handler therefore always pushes the record in the freeform case. -/
def valueH (fn : String → String) (ov : Val → String → Val) (s : AState)
    (key v : String) : Except JsError AState :=
  let target := topId s
  let v := trimStr v
  match arrTypeOf s.heap target with
  | some .simple => .ok s
  | some .freeform =>
    let (h1, rid) := alloc s.heap (.obj [("type", .str key), ("value", .str v)])
    .ok { s with heap := pushElem h1 target (.ref rid) }
  | some _ =>
    (append fn ov s.heap target key (.str v)).map (fun h => { s with heap := h })
  | none =>
    (append fn ov s.heap target key (.str v)).map (fun h => { s with heap := h })

/-- Model of the simple instruction handler: the two if statements of the JS
code run in order, the second reading the TYPE tag again after the first may
have assigned it. -/
def simpleH (s : AState) (key v : String) : Except JsError AState :=
  let t := topId s
  match arrTypeOf s.heap t with
  | none => .ok s
  | some ty0 =>
    let s1 :=
      if ty0 == ArrType.simple || ty0 == ArrType.untyped then
        { s with heap := pushElem (setArrType s.heap t .simple) t (.str (trimStr v)) }
      else s
    if arrTypeOf s1.heap t == some .freeform then
      let (h2, rid) := alloc s1.heap (.obj [("type", .str "text"), ("value", .str (trimStr (key ++ v)))])
      .ok { s1 with heap := pushElem h2 t (.ref rid) }
    else .ok s1

/-- Model of the object instruction handler: resolve the target, reuse an
existing object value at the key (typeof object also admits arrays) or make
a fresh one, insert it, push it as the new context. -/
def objectH (fn : String → String) (ov : Val → String → Val) (s : AState)
    (key : String) : Except JsError AState := do
  let (s1, target) := getTarget s key
  let r ← getPath fn s1.heap (.ref target) key
  match r with
  | some (.ref oid) =>
    let h2 ← append fn ov s1.heap target key (.ref oid)
    .ok (pushContext { s1 with heap := h2 } oid)
  | _ =>
    let (h1, oid) := alloc s1.heap (.obj [])
    let h2 ← append fn ov h1 target key (.ref oid)
    .ok (pushContext { s1 with heap := h2 } oid)

/-- Model of the array instruction handler.  The JS code assigns a fresh
array twice (lines 317 and 319); the first allocation is immediately
shadowed and survives only as garbage, which the model keeps as an orphan
heap node to preserve allocation order.  A key that normalizes to no
segments makes the JS code read last[0] from undefined, a TypeError. -/
def arrayH (fn : String → String) (ov : Val → String → Val) (s : AState)
    (key : String) : Except JsError AState := do
  let (horphan, _) := alloc s.heap (.arr .untyped [])
  let (s1, target) := getTarget { s with heap := horphan } key
  let (h0, aid) := alloc s1.heap (.arr .untyped [])
  match (normalizeKeypath fn key).getLast? with
  | none => .error .typeError
  | some last =>
    let h1 := if firstCharIs '+' last then setArrType h0 aid .freeform else h0
    let h2 ← append fn ov h1 target key (.ref aid)
    .ok (pushContext { s1 with heap := h2 } aid)

/-- Model of the closeObject instruction handler. -/
def closeObjectH (s : AState) : Except JsError AState :=
  .ok (popContext s).2

/-- Loop of closeArray: pop while the top is neither an array nor the root.
Each iteration pops once; a stack of length n needs at most n + 1 pops
before the auto-repaired root stops the loop, so the supplied fuel is never
exhausted. -/
def closeArrayGo : Nat → AState → AState
  | 0, s => s
  | fuel + 1, s =>
    match s.stack.getLast? with
    | none => closeArrayGo fuel (popContext s).2
    | some t =>
      if isArr s.heap t || t == 0 then s
      else closeArrayGo fuel (popContext s).2

/-- Model of the closeArray instruction handler. -/
def closeArrayH (s : AState) : Except JsError AState :=
  let s1 := closeArrayGo (s.stack.length + 2) s
  match s1.stack.getLast? with
  | some t => if isArr s1.heap t then .ok (popContext s1).2 else .ok s1
  | none => .ok s1

/-- Model of the buffer instruction handler: only acts inside a freeform
array, splitting the payload into non-blank lines and pushing one text
record per line. -/
def bufferH (s : AState) (_key v : String) : Except JsError AState :=
  let target := topId s
  if arrTypeOf s.heap target == some .freeform then
    let lines := (splitOnChar '\n' v).filter (fun x => !(trimStr x == ""))
    .ok { s with heap :=
      lines.foldl (fun h line =>
        let (h1, rid) := alloc h (.obj [("type", .str "text"), ("value", .str (trimStr line))])
        pushElem h1 target (.ref rid)) s.heap }
  else .ok s

/-- Member names other than the nine instruction kinds that resolve on the
assembler object: the remaining Assembler class methods, the top getter and
constructor, and the members inherited from Object.prototype.  The JS
dynamic dispatch this[type](key, value) invokes whatever these names
resolve to instead of crashing with an undefined call. -/
def memberNames : List String :=
  ["log", "pushContext", "popContext", "getTarget", "reset", "normalizeKeypath",
   "getPath", "setPath", "assemble", "append", "addToArray", "top", "constructor",
   "toString", "toLocaleString", "valueOf", "hasOwnProperty", "isPrototypeOf",
   "propertyIsEnumerable", "__lookupGetter__", "__lookupSetter__",
   "__defineGetter__", "__defineSetter__", "__proto__"]

/-- Dispatch branch for kinds naming the function members inherited from
Object.prototype: toString and its companions return discarded values and
assembly continues; the define-getter and define-setter members throw a
TypeError because the payload string they receive is not callable; the
proto accessor yields the prototype object, not a function, so invoking it
is the undefined-call TypeError; any remaining name resolves to undefined
and the call is likewise the undefined-call TypeError. -/
def dispatchProto (s : AState) (t : String) : Except JsError AState :=
  if t == "toString" || t == "toLocaleString" || t == "valueOf" ||
      t == "hasOwnProperty" || t == "isPrototypeOf" || t == "propertyIsEnumerable" ||
      t == "__lookupGetter__" || t == "__lookupSetter__" then .ok s
  else if t == "__defineGetter__" || t == "__defineSetter__" then .error .typeError
  else if t == "__proto__" then .error (.notAFunction t)
  else .error (.notAFunction t)

/-- Dispatch branch for further Assembler members invoked with shifted
arguments: addToArray reads no TYPE tag on its string target and then calls
Object.defineProperty on the primitive, a TypeError; constructor is a class
constructor invoked without new, a TypeError; the top getter yields the top
scope, never a function, so invoking it is the undefined-call TypeError;
reset with an empty (hence falsy) key only restores the stack to the root.
Two invocations put the program into states this model cannot represent and
return the unmodeledCall marker: pushContext, and reset with a non-empty
key, push the raw key string as a scope onto the context stack, and
assemble recursively assembles over the key string (with behaviour that
additionally depends on the verbose dump). -/
def dispatchMember2 (s : AState) (i : Instr) : Except JsError AState :=
  let t := i.type
  if t == "addToArray" then .error .typeError
  else if t == "constructor" then .error .typeError
  else if t == "top" then .error (.notAFunction t)
  else if t == "reset" then
    if i.key == "" then .ok (reset s none) else .error (.unmodeledCall t)
  else if t == "pushContext" || t == "assemble" then .error (.unmodeledCall t)
  else dispatchProto s t

/-- Dispatch branch for kinds naming another Assembler method, invoked with
the instruction key and payload as shifted arguments: log prints and
returns, leaving the state untouched; popContext ignores its arguments and
pops with auto-repair; getTarget keeps only its reset side effect, its
return value being discarded; normalizeKeypath is pure with a discarded
result; getPath reads from the key string as receiver, throwing exactly
when the keypath has a non-terminal segment; setPath, and append which
forwards to setPath for its non-array target, walk from the key string as
receiver: a non-terminal segment throws, while the terminal assignment on
the scalar receiver fails silently and discards the undefined value
argument (modelled by a dummy string never stored). -/
def dispatchMember (fn : String → String) (ov : Val → String → Val) (s : AState)
    (i : Instr) : Except JsError AState :=
  let t := i.type
  if t == "log" then .ok s
  else if t == "popContext" then .ok (popContext s).2
  else if t == "getTarget" then .ok (getTarget s i.key).1
  else if t == "normalizeKeypath" then .ok s
  else if t == "getPath" then
    (getPath fn s.heap (.str i.key) i.value).map (fun _ => s)
  else if t == "setPath" || t == "append" then
    (setPath fn ov s.heap (.str i.key) i.value (.str "")).map (fun h => { s with heap := h })
  else dispatchMember2 s i

/-- Dispatch of one normalized instruction, modelling the JS dynamic call
this[type](key, value) through whatever the kind string resolves to on the
assembler object: the nine instruction kinds call their handlers, every
other member name falls through to the member dispatch branches, and a kind
naming no member at all resolves to undefined, so the call is the
undefined-call TypeError. -/
def dispatchInstr (fn : String → String) (ov : Val → String → Val) (s : AState)
    (i : Instr) : Except JsError AState :=
  let t := i.type
  if t == "simple" then simpleH s i.key i.value
  else if t == "buffer" then bufferH s i.key i.value
  else if t == "value" then valueH fn ov s i.key i.value
  else if t == "object" then objectH fn ov s i.key
  else if t == "array" then arrayH fn ov s i.key
  else if t == "closeObject" then closeObjectH s
  else if t == "closeArray" then closeArrayH s
  else if t == "flush" then .ok s
  else if t == "skipped" then .ok s
  else dispatchMember fn ov s i

/-- Dispatch loop over the normalized stream, collecting the per-instruction
log lines; a raised error aborts the loop as a JS throw would. -/
def dispatchGo (fn : String → String) (ov : Val → String → Val) :
    AState → List Instr → Except JsError AState × List String
  | s, [] => (.ok s, [])
  | s, i :: rest =>
    let t := i.type
    let k := i.key
    let v := i.value
    let line := s!"> Assembling: {t}/{k}/{v}"
    match dispatchInstr fn ov s i with
    | .ok s1 =>
      let r := dispatchGo fn ov s1 rest
      (r.1, line :: r.2)
    | .error e => (.error e, [line])

/-- Final state of dispatching a normalized stream from a given state. -/
def dispatchList (fn : String → String) (ov : Val → String → Val) (s : AState)
    (l : List Instr) : Except JsError AState :=
  (dispatchGo fn ov s l).1

/-- Printable form of an instruction for the raw and post-process dumps. -/
def instrRepr (i : Instr) : String :=
  let t := i.type
  let k := i.key
  let v := i.value
  s!"instruction {t} {k} {v}"

/-- Full assembly: preprocessing pass followed by dispatch, returning the
final state (whose heap rooted at node 0 is the produced document) together
with the diagnostic trace.  The verbose option selects the trace and nothing
else, mirroring the log method that returns before printing when verbose is
unset. -/
def assembleT (os : Options) (l : List Instr) : Except JsError AState × List String :=
  let pp := preprocessGo l.length ⟨[], none, []⟩ l
  let dd := dispatchGo os.onFieldName os.onValue initState pp.1.processed
  (dd.1,
    if os.verbose then
      ("Raw instructions stream" :: l.map instrRepr) ++ pp.2
        ++ ("Post-process instructions" :: pp.1.processed.map instrRepr) ++ dd.2
    else [])

/-- Options with identity hooks and verbose off, used by concrete runs. -/
def idOptions : Options :=
  ⟨false, id, fun v _ => v⟩

/-- Decidable equality of run outcomes, for concrete evaluations. -/
instance {α : Type} [DecidableEq α] : DecidableEq (Except JsError α) := fun a b =>
  match a, b with
  | .ok x, .ok y => if h : x = y then isTrue (by rw [h]) else isFalse (by simp [h])
  | .error x, .error y => if h : x = y then isTrue (by rw [h]) else isFalse (by simp [h])
  | .ok _, .error _ => isFalse (by simp)
  | .error _, .ok _ => isFalse (by simp)

/-- Predicate for the amended claim C8: every non-terminal segment that the
getPath loop actually traverses resolves to a JS object in the heap (a
Mapping or Sequence node).  Segments whose lookup is absent terminate the
traversal early and are therefore allowed. -/
def nonTerminalObjs (h : Heap) : Val → List String → Bool
  | _, [] => true
  | branch, k :: rest =>
    match branch with
    | .str _ => false
    | .num _ => false
    | .ref i =>
      match h[i]? with
      | some (.obj fs) =>
        match objGet fs k with
        | some v => nonTerminalObjs h v rest
        | none => true
      | some (.arr _ es) =>
        if k == "length" then nonTerminalObjs h (.num es.length) rest
        else
          match strToNat? k with
          | some n =>
            match es[n]? with
            | some v => nonTerminalObjs h v rest
            | none => true
          | none => true
      | none => true

/-- Stack component of the C2 invariant: the context stack is non-empty and
its bottom element is the document root. -/
def stackInv (s : AState) : Prop :=
  s.stack ≠ [] ∧ s.stack.head? = some 0

/-- Heap relation for C3: every array node carrying a tag other than untyped
keeps exactly that tag (its element list may change). -/
def tyPres (h h' : Heap) : Prop :=
  ∀ (i : Nat) (ty : ArrType) (es : List Val), ty ≠ ArrType.untyped →
    h[i]? = some (.arr ty es) → ∃ es', h'[i]? = some (.arr ty es')

/-! ### Claim theorems -/

/-- C1: the instruction sequence object article, value title Hello, value
body World, closeObject produces the document in which article maps to the
mapping holding title Hello and body World: the two undotted value
instructions are written inside the article node (heap node 1) pushed by the
preceding object instruction, because the value handler writes through the
top of the context stack. -/
theorem c1_nested_object_document :
    (assembleT idOptions
      [⟨"object", "article", ""⟩, ⟨"value", "title", "Hello"⟩,
       ⟨"value", "body", "World"⟩, ⟨"closeObject", "", ""⟩]).1 =
      Except.ok ⟨[.obj [("article", .ref 1)],
                  .obj [("title", .str "Hello"), ("body", .str "World")]], [0]⟩ := by
  decide

/-! Stack invariant lemmas for C2. -/

/-- Monadic bind on a successful Except computation. -/
theorem exceptBind_ok {ε α β : Type} (a : α) (f : α → Except ε β) :
    (Except.ok a >>= f) = f a := rfl

/-- Monadic bind on a failed Except computation. -/
theorem exceptBind_err {ε α β : Type} (e : ε) (f : α → Except ε β) :
    ((Except.error e : Except ε α) >>= f) = Except.error e := rfl

/-- Two states with the same stack satisfy the invariant together. -/
theorem stackInv_of_stack_eq {s s' : AState} (h : s'.stack = s.stack)
    (hs : stackInv s) : stackInv s' := by
  unfold stackInv at hs ⊢
  rw [h]
  exact hs

/-- Pushing a scope preserves the stack invariant. -/
theorem stackInv_pushContext {s : AState} (hs : stackInv s) (x : Nat) :
    stackInv (pushContext s x) := by
  obtain ⟨hne, hhd⟩ := hs
  cases hstk : s.stack with
  | nil => exact absurd hstk hne
  | cons a t =>
    rw [hstk] at hhd
    refine ⟨by simp [pushContext, hstk], ?_⟩
    simp only [pushContext, hstk]
    simpa using hhd

/-- Popping preserves the stack invariant thanks to the auto-repair. -/
theorem stackInv_popContext {s : AState} (hs : stackInv s) :
    stackInv (popContext s).2 := by
  obtain ⟨hne, hhd⟩ := hs
  cases hstk : s.stack with
  | nil => exact absurd hstk hne
  | cons a t =>
    rw [hstk] at hhd
    cases t with
    | nil => exact ⟨by simp [popContext, hstk], by simp [popContext, hstk]⟩
    | cons b t2 =>
      have ha : a = 0 := by simpa using hhd
      refine ⟨by simp [popContext, hstk], ?_⟩
      simp [popContext, hstk, ha]

/-- Resetting establishes the stack invariant unconditionally. -/
theorem stackInv_reset (s : AState) (o : Option Nat) : stackInv (reset s o) := by
  cases o <;> exact ⟨by simp [reset], by simp [reset]⟩

/-- Resolving a target preserves the stack invariant. -/
theorem stackInv_getTarget {s : AState} (hs : stackInv s) (key : String) :
    stackInv (getTarget s key).1 := by
  unfold getTarget
  split
  · exact hs
  · exact stackInv_reset s none

/-- The closeArray pop loop preserves the stack invariant. -/
theorem stackInv_closeArrayGo :
    ∀ (fuel : Nat) {s : AState}, stackInv s → stackInv (closeArrayGo fuel s) := by
  intro fuel
  induction fuel with
  | zero => intro s hs; exact hs
  | succ n ih =>
    intro s hs
    cases hL : s.stack.getLast? with
    | none =>
      simp only [closeArrayGo, hL]
      exact ih (stackInv_popContext hs)
    | some t =>
      simp only [closeArrayGo, hL]
      split
      · exact hs
      · exact ih (stackInv_popContext hs)

/-- The value handler never touches the stack. -/
theorem valueH_stack {fn : String → String} {ov : Val → String → Val}
    {s s' : AState} {key v : String} (h : valueH fn ov s key v = .ok s') :
    s'.stack = s.stack := by
  simp only [valueH, alloc, Except.map] at h
  repeat' split at h
  all_goals first
    | exact Except.noConfusion h
    | (cases h; rfl)

/-- The simple handler never touches the stack. -/
theorem simpleH_stack {s s' : AState} {key v : String}
    (h : simpleH s key v = .ok s') : s'.stack = s.stack := by
  simp only [simpleH, alloc] at h
  repeat' split at h
  all_goals first
    | exact Except.noConfusion h
    | (cases h; rfl)

/-- The buffer handler never touches the stack. -/
theorem bufferH_stack {s s' : AState} {key v : String}
    (h : bufferH s key v = .ok s') : s'.stack = s.stack := by
  simp only [bufferH, alloc] at h
  repeat' split at h
  all_goals first
    | exact Except.noConfusion h
    | (cases h; rfl)

/-- The object handler preserves the stack invariant. -/
theorem objectH_stackInv {fn : String → String} {ov : Val → String → Val}
    {s s' : AState} {key : String} (h : objectH fn ov s key = .ok s')
    (hs : stackInv s) : stackInv s' := by
  rcases hGT : getTarget s key with ⟨s1, target⟩
  have hinv1 : stackInv s1 := by
    have := stackInv_getTarget hs key
    rw [hGT] at this
    exact this
  simp only [objectH, hGT, alloc, bind, Except.bind] at h
  repeat' split at h
  all_goals first
    | exact Except.noConfusion h
    | (cases h; exact stackInv_pushContext (stackInv_of_stack_eq rfl hinv1) _)

/-- The array handler preserves the stack invariant. -/
theorem arrayH_stackInv {fn : String → String} {ov : Val → String → Val}
    {s s' : AState} {key : String} (h : arrayH fn ov s key = .ok s')
    (hs : stackInv s) : stackInv s' := by
  rcases hGT : getTarget { s with heap := s.heap ++ [Node.arr .untyped []] } key with ⟨s1, target⟩
  have hinv1 : stackInv s1 := by
    have := stackInv_getTarget (s := { s with heap := s.heap ++ [Node.arr .untyped []] })
      (stackInv_of_stack_eq rfl hs) key
    rw [hGT] at this
    exact this
  simp only [arrayH, alloc, hGT, bind, Except.bind] at h
  repeat' split at h
  all_goals first
    | exact Except.noConfusion h
    | (cases h; exact stackInv_pushContext (stackInv_of_stack_eq rfl hinv1) _)

/-- The closeArray handler preserves the stack invariant. -/
theorem closeArrayH_stackInv {s s' : AState} (h : closeArrayH s = .ok s')
    (hs : stackInv s) : stackInv s' := by
  have h1 : stackInv (closeArrayGo (s.stack.length + 2) s) :=
    stackInv_closeArrayGo _ hs
  simp only [closeArrayH] at h
  repeat' split at h
  all_goals first
    | exact Except.noConfusion h
    | (cases h; exact stackInv_popContext h1)
    | (cases h; exact h1)

/-- The Object.prototype dispatch branch preserves the stack invariant. -/
theorem dispatchProto_stackInv {s s' : AState} {t : String}
    (h : dispatchProto s t = .ok s') (hs : stackInv s) : stackInv s' := by
  simp only [dispatchProto] at h
  repeat' split at h
  all_goals first
    | exact Except.noConfusion h
    | (cases h; exact hs)

/-- The second member dispatch branch preserves the stack invariant. -/
theorem dispatchMember2_stackInv {s s' : AState} {i : Instr}
    (h : dispatchMember2 s i = .ok s') (hs : stackInv s) : stackInv s' := by
  simp only [dispatchMember2] at h
  repeat' split at h
  all_goals first
    | exact Except.noConfusion h
    | exact dispatchProto_stackInv h hs
    | (cases h; exact stackInv_reset _ _)
    | (cases h; exact hs)

/-- The first member dispatch branch preserves the stack invariant. -/
theorem dispatchMember_stackInv {fn : String → String} {ov : Val → String → Val}
    {s s' : AState} {i : Instr} (h : dispatchMember fn ov s i = .ok s')
    (hs : stackInv s) : stackInv s' := by
  simp only [dispatchMember] at h
  repeat' split at h
  all_goals first
    | exact Except.noConfusion h
    | exact dispatchMember2_stackInv h hs
    | (cases h; exact stackInv_popContext hs)
    | (cases h; exact stackInv_getTarget hs _)
    | (cases h; exact hs)
    | (simp only [Except.map] at h; split at h <;>
        first
          | exact Except.noConfusion h
          | (cases h; exact stackInv_of_stack_eq rfl hs)
          | (cases h; exact hs))

/-- One dispatched instruction preserves the stack invariant. -/
theorem dispatchInstr_stackInv {fn : String → String} {ov : Val → String → Val}
    {s s' : AState} {i : Instr} (h : dispatchInstr fn ov s i = .ok s')
    (hs : stackInv s) : stackInv s' := by
  simp only [dispatchInstr] at h
  repeat' split at h
  all_goals first
    | exact Except.noConfusion h
    | exact stackInv_of_stack_eq (simpleH_stack h) hs
    | exact stackInv_of_stack_eq (bufferH_stack h) hs
    | exact stackInv_of_stack_eq (valueH_stack h) hs
    | exact objectH_stackInv h hs
    | exact arrayH_stackInv h hs
    | exact closeArrayH_stackInv h hs
    | exact dispatchMember_stackInv h hs
    | (cases h; exact stackInv_popContext hs)
    | (cases h; exact hs)

/-- The dispatch loop preserves the stack invariant. -/
theorem dispatchList_stackInv :
    ∀ (l : List Instr) (fn : String → String) (ov : Val → String → Val)
      (s s' : AState), stackInv s → dispatchList fn ov s l = .ok s' → stackInv s' := by
  intro l
  induction l with
  | nil =>
    intro fn ov s s' hs h
    unfold dispatchList dispatchGo at h
    cases h
    exact hs
  | cons i rest ih =>
    intro fn ov s s' hs h
    unfold dispatchList dispatchGo at h
    split at h
    case h_1 s1 hd =>
      exact ih fn ov s1 s' (dispatchInstr_stackInv hd hs) h
    case h_2 e hd =>
      cases h

/-- C2: after processing any prefix of any normalized instruction stream the
context stack is non-empty with the document root at the bottom; and popping
a one-element stack leaves exactly the root while returning the previous top
scope. -/
theorem c2_stack_never_empty :
    (∀ (fn : String → String) (ov : Val → String → Val) (raw : List Instr)
        (k : Nat) (s : AState),
      dispatchList fn ov initState ((preprocessList raw).take k) = .ok s →
      s.stack ≠ [] ∧ s.stack.head? = some 0)
    ∧ ∀ (s : AState) (x : Nat), s.stack = [x] →
      popContext s = (x, { s with stack := [0] }) := by
  constructor
  · intro fn ov raw k s h
    exact dispatchList_stackInv _ fn ov initState s ⟨by simp [initState], by simp [initState]⟩ h
  · intro s x hx
    simp [popContext, hx]

/-- C2 witness: the invariant theorem applied to the one-instruction stream
object a, and the pop clause applied to a concrete one-element stack. -/
theorem c2_stack_never_empty_witness :
    ((⟨[Node.obj [("a", Val.ref 1)], Node.obj []], [0, 1]⟩ : AState).stack ≠ [] ∧
      (⟨[Node.obj [("a", Val.ref 1)], Node.obj []], [0, 1]⟩ : AState).stack.head? = some 0) ∧
    popContext ⟨[Node.obj []], [5]⟩ = (5, ⟨[Node.obj []], [0]⟩) :=
  ⟨c2_stack_never_empty.1 id (fun v _ => v) [⟨"object", "a", ""⟩] 1
      ⟨[Node.obj [("a", Val.ref 1)], Node.obj []], [0, 1]⟩ (by decide),
   c2_stack_never_empty.2 ⟨[Node.obj []], [5]⟩ 5 rfl⟩

/-! Heap subtype-preservation lemmas for C3. -/

/-- A successful index lookup bounds the index. -/
theorem lt_of_getElem?_eq_some {h : Heap} {i : Nat} {nd : Node}
    (hi : h[i]? = some nd) : i < h.length := by
  by_contra hge
  rw [List.getElem?_eq_none (Nat.le_of_not_lt hge)] at hi
  exact absurd hi (by simp)

/-- Allocation at the end of the heap does not disturb earlier lookups. -/
theorem getElem?_append_one {h : Heap} {i : Nat} {nd x : Node}
    (hi : h[i]? = some nd) : (h ++ [x])[i]? = some nd := by
  rw [List.getElem?_append, if_pos (lt_of_getElem?_eq_some hi)]
  exact hi

/-- The preservation relation is reflexive. -/
theorem tyPres_refl (h : Heap) : tyPres h h :=
  fun _ _ es _ hi => ⟨es, hi⟩

/-- The preservation relation is transitive. -/
theorem tyPres_trans {a b c : Heap} (h1 : tyPres a b) (h2 : tyPres b c) :
    tyPres a c := by
  intro i ty es hty hi
  obtain ⟨es1, hb⟩ := h1 i ty es hty hi
  exact h2 i ty es1 hty hb

/-- Allocation preserves every tagged array. -/
theorem tyPres_append (h : Heap) (n : Node) : tyPres h (h ++ [n]) := by
  intro i ty es hty hi
  exact ⟨es, getElem?_append_one hi⟩

/-- Overwriting node j preserves tagged arrays provided the new node keeps
the tag whenever the old node at j was a tagged array. -/
theorem tyPres_set {h : Heap} {j : Nat} {nd : Node}
    (hj : ∀ ty es, ty ≠ ArrType.untyped → h[j]? = some (.arr ty es) →
      ∃ es', nd = .arr ty es') :
    tyPres h (h.set j nd) := by
  intro i ty es hty hi
  by_cases hij : j = i
  · subst hij
    obtain ⟨es', hnd⟩ := hj ty es hty hi
    exact ⟨es', by rw [List.getElem?_set_eq_of_lt nd (lt_of_getElem?_eq_some hi), hnd]⟩
  · exact ⟨es, by rw [List.getElem?_set_ne hij]; exact hi⟩

/-- Overwriting a node that is an object preserves every tagged array. -/
theorem tyPres_set_obj {h : Heap} {i : Nat} {fs : List (String × Val)} {nd : Node}
    (hi : h[i]? = some (.obj fs)) : tyPres h (h.set i nd) := by
  apply tyPres_set
  intro ty' es' _ hi'
  rw [hi] at hi'
  exact absurd (Option.some.inj hi') (fun hh => Node.noConfusion hh)

/-- Replacing the element list of an array while keeping its tag preserves
every tagged array. -/
theorem tyPres_set_arr {h : Heap} {i : Nat} {ty : ArrType} {es es2 : List Val}
    (hi : h[i]? = some (.arr ty es)) : tyPres h (h.set i (.arr ty es2)) := by
  apply tyPres_set
  intro ty' es' hty' hi'
  rw [hi] at hi'
  injection hi' with hnode
  injection hnode with hty hes
  exact ⟨es2, by rw [← hty]⟩

/-- Pushing an element preserves every tagged array. -/
theorem tyPres_pushElem (h : Heap) (i : Nat) (v : Val) :
    tyPres h (pushElem h i v) := by
  unfold pushElem
  split
  case h_1 ty es heq => exact tyPres_set_arr heq
  case h_2 => exact tyPres_refl h

/-- Re-tagging an array preserves every tagged array when the array is
currently untagged or already carries the written tag. -/
theorem tyPres_setArrType {h : Heap} {i : Nat} {ty : ArrType}
    (hg : arrTypeOf h i = some ArrType.untyped ∨ arrTypeOf h i = some ty) :
    tyPres h (setArrType h i ty) := by
  unfold setArrType
  split
  case h_1 ty0 es heq =>
    apply tyPres_set
    intro ty' es' hty' hi'
    rw [heq] at hi'
    injection hi' with hnode
    injection hnode with hty hes
    subst hty
    rcases hg with hg | hg <;> simp only [arrTypeOf, heq, Option.some.injEq] at hg
    · exact absurd hg hty'
    · exact ⟨es, by rw [hg]⟩
  case h_2 => exact tyPres_refl h

/-- The setPath walk preserves every tagged array. -/
theorem tyPres_setPathGo (ov : Val → String → Val) :
    ∀ (ks : List String) (h : Heap) (branch : Val) (t : String) (v : Val) (h' : Heap),
      setPathGo ov h branch ks t v = .ok h' → tyPres h h' := by
  intro ks
  induction ks with
  | nil =>
    intro h branch t v h' hset
    simp only [setPathGo] at hset
    repeat' split at hset
    all_goals cases hset
    all_goals first
      | exact tyPres_refl _
      | (apply tyPres_set_obj <;> assumption)
      | (apply tyPres_set_arr <;> assumption)
  | cons k rest ih =>
    intro h branch t v h' hset
    simp only [setPathGo, alloc] at hset
    repeat' split at hset
    all_goals first
      | exact Except.noConfusion hset
      | (cases hset; exact tyPres_refl _)
      | exact ih _ _ _ _ _ hset
      | exact tyPres_trans (tyPres_append _ _) (ih _ _ _ _ _ hset)
      | (apply tyPres_trans (tyPres_append _ _);
         refine tyPres_trans ?_ (ih _ _ _ _ _ hset);
         apply tyPres_set_obj <;> assumption)
      | (apply tyPres_trans (tyPres_append _ _);
         refine tyPres_trans ?_ (ih _ _ _ _ _ hset);
         apply tyPres_set_arr;
         apply getElem?_append_one;
         assumption)

/-- The setPath wrapper preserves every tagged array. -/
theorem tyPres_setPath {fn : String → String} {ov : Val → String → Val}
    {h : Heap} {object : Val} {kp : String} {v : Val} {h' : Heap}
    (hset : setPath fn ov h object kp v = .ok h') : tyPres h h' := by
  simp only [setPath] at hset
  split at hset
  · exact Except.noConfusion hset
  · exact tyPres_setPathGo ov _ _ _ _ _ _ hset

/-- Starting a fresh element and writing into it preserves every tagged
array of the original heap. -/
theorem tyPres_insertNew {fn : String → String} {ov : Val → String → Val}
    {H0 : Heap} {target : Nat} {key : String} {v : Val} {h' : Heap}
    (hset : setPath fn ov (pushElem (H0 ++ [Node.obj []]) target (.ref H0.length))
      (.ref H0.length) key v = .ok h') : tyPres H0 h' :=
  tyPres_trans (tyPres_append _ _)
    (tyPres_trans (tyPres_pushElem _ _ _) (tyPres_setPath hset))

/-- The array-append algorithm preserves every tagged array. -/
theorem tyPres_addToArray {fn : String → String} {ov : Val → String → Val}
    {h : Heap} {target : Nat} {key : String} {v : Val} {h' : Heap}
    (hadd : addToArray fn ov h target key v = .ok h') : tyPres h h' := by
  simp only [addToArray, alloc, bind, Except.bind] at hadd
  split at hadd
  · cases hadd
    exact tyPres_trans (tyPres_append _ _) (tyPres_pushElem _ _ _)
  · cases hadd
    exact tyPres_refl _
  · have hstep : ∀ h0 : Heap, tyPres h h0 →
        (match (elemsOf h0 target).getLast? with
          | none => setPath fn ov (pushElem (h0 ++ [Node.obj []]) target (.ref h0.length))
              (.ref h0.length) key (trimIfStr v)
          | some last => do
              let r ← getPath fn h0 last key
              if optTruthy r then
                setPath fn ov (pushElem (h0 ++ [Node.obj []]) target (.ref h0.length))
                  (.ref h0.length) key (trimIfStr v)
              else setPath fn ov h0 last key (trimIfStr v)) = .ok h' →
        tyPres h h' := by
      intro h0 hpre hrun
      split at hrun
      · exact tyPres_trans hpre (tyPres_insertNew hrun)
      case h_2 last heq =>
        simp only [bind, Except.bind] at hrun
        cases hgp : getPath fn h0 last key <;> simp only [hgp] at hrun
        · exact Except.noConfusion hrun
        case ok r =>
          cases htr : optTruthy r <;> simp only [htr] at hrun
          · exact tyPres_trans hpre (tyPres_setPath hrun)
          · exact tyPres_trans hpre (tyPres_insertNew hrun)
      -- if the if-then-else synthesized Bool coercions differ the cases above
      -- still close both branches
    cases hc : (arrTypeOf h target == some ArrType.untyped) <;> simp only [hc] at hadd
    · exact hstep h (tyPres_refl _) hadd
    · refine hstep (setArrType h target ArrType.standard) (tyPres_setArrType (Or.inl ?_)) hadd
      exact eq_of_beq hc

/-- The append router preserves every tagged array. -/
theorem tyPres_appendH {fn : String → String} {ov : Val → String → Val}
    {h : Heap} {target : Nat} {key : String} {v : Val} {h' : Heap}
    (happ : append fn ov h target key v = .ok h') : tyPres h h' := by
  simp only [append] at happ
  split at happ
  · exact tyPres_addToArray happ
  · exact tyPres_setPath happ

/-- The heap component is untouched by target resolution. -/
theorem getTarget_heap (s : AState) (key : String) :
    (getTarget s key).1.heap = s.heap := by
  unfold getTarget reset
  split <;> rfl

/-- The heap component is untouched by popping a context. -/
theorem popContext_heap (s : AState) : (popContext s).2.heap = s.heap := rfl

/-- The heap component is untouched by the closeArray pop loop. -/
theorem closeArrayGo_heap :
    ∀ (fuel : Nat) (s : AState), (closeArrayGo fuel s).heap = s.heap := by
  intro fuel
  induction fuel with
  | zero => intro s; rfl
  | succ n ih =>
    intro s
    cases hL : s.stack.getLast? with
    | none =>
      simp only [closeArrayGo, hL]
      exact ih _
    | some t =>
      simp only [closeArrayGo, hL]
      split
      · rfl
      · exact ih _

/-- The heap component is untouched by the closeArray handler. -/
theorem closeArrayH_heap {s s' : AState} (h : closeArrayH s = .ok s') :
    s'.heap = s.heap := by
  simp only [closeArrayH] at h
  split at h
  · split at h <;> cases h
    · rw [popContext_heap, closeArrayGo_heap]
    · rw [closeArrayGo_heap]
  · cases h
    rw [closeArrayGo_heap]

/-- The value handler preserves every tagged array. -/
theorem tyPres_valueH {fn : String → String} {ov : Val → String → Val}
    {s s' : AState} {key v : String} (h : valueH fn ov s key v = .ok s') :
    tyPres s.heap s'.heap := by
  simp only [valueH, alloc, Except.map] at h
  split at h
  · cases h; exact tyPres_refl _
  · cases h; exact tyPres_trans (tyPres_append _ _) (tyPres_pushElem _ _ _)
  all_goals
    cases happ : append fn ov s.heap (topId s) key (Val.str (trimStr v)) <;>
      simp only [happ] at h
  all_goals first
    | exact Except.noConfusion h
    | (cases h; exact tyPres_appendH happ)

/-- Re-tagging an array as simple under the guard of the simple handler
preserves every tagged array. -/
theorem tyPres_simpleAssign {h : Heap} {t : Nat} {ty0 : ArrType}
    (heq : arrTypeOf h t = some ty0)
    (hc : (ty0 == ArrType.simple || ty0 == ArrType.untyped) = true) :
    tyPres h (setArrType h t ArrType.simple) := by
  apply tyPres_setArrType
  rcases Bool.or_eq_true_iff.mp hc with hc1 | hc1
  · right
    rw [heq, eq_of_beq hc1]
  · left
    rw [heq, eq_of_beq hc1]

/-- The simple handler preserves every tagged array. -/
theorem tyPres_simpleH {s s' : AState} {key v : String}
    (h : simpleH s key v = .ok s') : tyPres s.heap s'.heap := by
  simp only [simpleH, alloc] at h
  split at h
  · cases h; exact tyPres_refl _
  case h_2 ty0 heq =>
    have hassign : (ty0 == ArrType.simple || ty0 == ArrType.untyped) = true →
        tyPres s.heap (pushElem (setArrType s.heap (topId s) ArrType.simple) (topId s)
          (Val.str (trimStr v))) :=
      fun hc => tyPres_trans (tyPres_simpleAssign heq hc) (tyPres_pushElem _ _ _)
    repeat' split at h
    all_goals cases h
    all_goals first
      | exact tyPres_refl _
      | exact tyPres_trans (tyPres_append _ _) (tyPres_pushElem _ _ _)
      | (refine tyPres_trans (hassign ?_) ?_ <;>
         first
           | assumption
           | exact tyPres_refl _
           | exact tyPres_trans (tyPres_append _ _) (tyPres_pushElem _ _ _))

/-- The buffer handler folds allocations and pushes over the lines, which
preserves every tagged array. -/
theorem tyPres_bufferFold (target : Nat) :
    ∀ (lines : List String) (h : Heap),
      tyPres h (lines.foldl (fun h line =>
        let (h1, rid) := alloc h (.obj [("type", .str "text"), ("value", .str (trimStr line))])
        pushElem h1 target (.ref rid)) h) := by
  intro lines
  induction lines with
  | nil => intro h; exact tyPres_refl _
  | cons l rest ih =>
    intro h
    simp only [List.foldl, alloc]
    exact tyPres_trans (tyPres_trans (tyPres_append _ _) (tyPres_pushElem _ _ _)) (ih _)

/-- The buffer handler preserves every tagged array. -/
theorem tyPres_bufferH {s s' : AState} {key v : String}
    (h : bufferH s key v = .ok s') : tyPres s.heap s'.heap := by
  simp only [bufferH] at h
  split at h <;> cases h
  · exact tyPres_bufferFold _ _ _
  · exact tyPres_refl _

/-- The object handler preserves every tagged array. -/
theorem tyPres_objectH {fn : String → String} {ov : Val → String → Val}
    {s s' : AState} {key : String} (h : objectH fn ov s key = .ok s') :
    tyPres s.heap s'.heap := by
  rcases hGT : getTarget s key with ⟨s1, target⟩
  have hh : s1.heap = s.heap := by
    have := getTarget_heap s key
    rw [hGT] at this
    exact this
  simp only [objectH, hGT, alloc, bind, Except.bind] at h
  cases hg : getPath fn s1.heap (.ref target) key <;> simp only [hg] at h
  case error => exact Except.noConfusion h
  case ok r =>
    have hfresh : ∀ h2 : Heap,
        append fn ov (s1.heap ++ [Node.obj []]) target key (.ref s1.heap.length) = .ok h2 →
        tyPres s.heap h2 := by
      intro h2 happ
      rw [← hh]
      exact tyPres_trans (tyPres_append _ _) (tyPres_appendH happ)
    cases r with
    | some w =>
      cases w with
      | ref oid =>
        cases happ : append fn ov s1.heap target key (.ref oid) <;> simp only [happ] at h
        · exact Except.noConfusion h
        case ok h2 =>
          cases h
          rw [← hh]
          exact tyPres_appendH happ
      | str s0 =>
        cases happ : append fn ov (s1.heap ++ [Node.obj []]) target key (.ref s1.heap.length) <;>
          simp only [happ] at h
        · exact Except.noConfusion h
        case ok h2 => cases h; exact hfresh h2 happ
      | num n0 =>
        cases happ : append fn ov (s1.heap ++ [Node.obj []]) target key (.ref s1.heap.length) <;>
          simp only [happ] at h
        · exact Except.noConfusion h
        case ok h2 => cases h; exact hfresh h2 happ
    | none =>
      cases happ : append fn ov (s1.heap ++ [Node.obj []]) target key (.ref s1.heap.length) <;>
        simp only [happ] at h
      · exact Except.noConfusion h
      case ok h2 => cases h; exact hfresh h2 happ

/-- The array handler preserves every tagged array. -/
theorem tyPres_arrayH {fn : String → String} {ov : Val → String → Val}
    {s s' : AState} {key : String} (h : arrayH fn ov s key = .ok s') :
    tyPres s.heap s'.heap := by
  rcases hGT : getTarget { s with heap := s.heap ++ [Node.arr .untyped []] } key with ⟨s1, target⟩
  have hh : s1.heap = s.heap ++ [Node.arr ArrType.untyped []] := by
    have := getTarget_heap { s with heap := s.heap ++ [Node.arr .untyped []] } key
    rw [hGT] at this
    exact this
  have hpre : tyPres s.heap s1.heap := by
    rw [hh]
    exact tyPres_append _ _
  simp only [arrayH, alloc, hGT, bind, Except.bind] at h
  split at h
  · exact Except.noConfusion h
  case h_2 last heq =>
    cases hplus : firstCharIs '+' last <;> simp [hplus] at h
    · cases happ : append fn ov (s1.heap ++ [Node.arr ArrType.untyped []]) target key
          (.ref s1.heap.length) <;> simp only [happ] at h
      · exact Except.noConfusion h
      case ok h2 =>
        cases h
        exact tyPres_trans hpre (tyPres_trans (tyPres_append _ _) (tyPres_appendH happ))
    · cases happ : append fn ov
          (setArrType (s1.heap ++ [Node.arr ArrType.untyped []]) s1.heap.length ArrType.freeform)
          target key (.ref s1.heap.length) <;> simp only [happ] at h
      · exact Except.noConfusion h
      case ok h2 =>
        cases h
        refine tyPres_trans hpre (tyPres_trans (tyPres_append _ _)
          (tyPres_trans (tyPres_setArrType (Or.inl ?_)) (tyPres_appendH happ)))
        simp [arrTypeOf, List.getElem?_concat_length]

/-- The Object.prototype dispatch branch preserves every tagged array. -/
theorem tyPres_dispatchProto {s s' : AState} {t : String}
    (h : dispatchProto s t = .ok s') : tyPres s.heap s'.heap := by
  simp only [dispatchProto] at h
  repeat' split at h
  all_goals first
    | exact Except.noConfusion h
    | (cases h; exact tyPres_refl _)

/-- The second member dispatch branch preserves every tagged array. -/
theorem tyPres_dispatchMember2 {s s' : AState} {i : Instr}
    (h : dispatchMember2 s i = .ok s') : tyPres s.heap s'.heap := by
  simp only [dispatchMember2] at h
  repeat' split at h
  all_goals first
    | exact Except.noConfusion h
    | exact tyPres_dispatchProto h
    | (cases h; exact tyPres_refl _)

/-- The first member dispatch branch preserves every tagged array. -/
theorem tyPres_dispatchMember {fn : String → String} {ov : Val → String → Val}
    {s s' : AState} {i : Instr} (h : dispatchMember fn ov s i = .ok s') :
    tyPres s.heap s'.heap := by
  simp only [dispatchMember] at h
  repeat' split at h
  all_goals first
    | exact Except.noConfusion h
    | exact tyPres_dispatchMember2 h
    | (cases h; rw [popContext_heap]; exact tyPres_refl _)
    | (cases h; rw [getTarget_heap]; exact tyPres_refl _)
    | (cases h; exact tyPres_refl _)
    | (simp only [Except.map] at h; split at h <;>
        first
          | exact Except.noConfusion h
          | (cases h; exact tyPres_refl _)
          | (cases h; apply tyPres_setPath; assumption))

/-- One dispatched instruction preserves every tagged array. -/
theorem tyPres_dispatchInstr {fn : String → String} {ov : Val → String → Val}
    {s s' : AState} {i : Instr} (h : dispatchInstr fn ov s i = .ok s') :
    tyPres s.heap s'.heap := by
  simp only [dispatchInstr] at h
  repeat' split at h
  all_goals first
    | exact Except.noConfusion h
    | exact tyPres_simpleH h
    | exact tyPres_bufferH h
    | exact tyPres_valueH h
    | exact tyPres_objectH h
    | exact tyPres_arrayH h
    | exact tyPres_dispatchMember h
    | (rw [closeArrayH_heap h]; exact tyPres_refl _)
    | (cases h; rw [popContext_heap]; exact tyPres_refl _)
    | (cases h; exact tyPres_refl _)

/-- The dispatch loop preserves every tagged array. -/
theorem tyPres_dispatchList :
    ∀ (l : List Instr) (fn : String → String) (ov : Val → String → Val)
      (s s' : AState), dispatchList fn ov s l = .ok s' → tyPres s.heap s'.heap := by
  intro l
  induction l with
  | nil =>
    intro fn ov s s' h
    unfold dispatchList dispatchGo at h
    cases h
    exact tyPres_refl _
  | cons i rest ih =>
    intro fn ov s s' h
    unfold dispatchList dispatchGo at h
    split at h
    case h_1 s1 hd => exact tyPres_trans (tyPres_dispatchInstr hd) (ih fn ov s1 s' h)
    case h_2 e hd => cases h

/-- C3: a sequence whose subtype tag is set to standard, simple or freeform
keeps exactly that tag through every later instruction of the assembly; only
its element list can change. -/
theorem c3_subtype_immutable :
    ∀ (fn : String → String) (ov : Val → String → Val) (l : List Instr)
      (s s' : AState) (i : Nat) (ty : ArrType) (es : List Val),
      dispatchList fn ov s l = .ok s' →
      ty ≠ ArrType.untyped →
      s.heap[i]? = some (.arr ty es) →
      ∃ es', s'.heap[i]? = some (.arr ty es') := by
  intro fn ov l s s' i ty es h hty hi
  exact tyPres_dispatchList l fn ov s s' h i ty es hty hi

/-- C3 witness: a freeform sequence keeps its tag across a simple
instruction that appends a text record to it. -/
theorem c3_subtype_immutable_witness :
    ∃ es', ((⟨[Node.obj [], Node.arr ArrType.freeform [Val.ref 2],
        Node.obj [("type", Val.str "text"), ("value", Val.str "x")]], [0, 1]⟩ : AState)).heap[1]? =
      some (Node.arr ArrType.freeform es') :=
  c3_subtype_immutable id (fun v _ => v) [⟨"simple", "", "x"⟩]
    ⟨[Node.obj [], Node.arr ArrType.freeform []], [0, 1]⟩
    ⟨[Node.obj [], Node.arr ArrType.freeform [Val.ref 2],
      Node.obj [("type", Val.str "text"), ("value", Val.str "x")]], [0, 1]⟩
    1 ArrType.freeform [] (by decide) (by decide) (by decide)

/-- C4 counterexample: an instruction of the unrecognized kind bogus makes
assembly fail with the modelled undefined-call TypeError (this[type] is not
a function), not with the defined fatal error UnrecognizedInstructionKind
that the claim postulates. -/
theorem c4_counterexample :
    (assembleT idOptions [⟨"bogus", "", ""⟩]).1 = Except.error (.notAFunction "bogus") ∧
      (assembleT idOptions [⟨"bogus", "", ""⟩]).1 ≠
        Except.error .unrecognizedInstructionKind := by
  constructor
  · decide
  · decide

/-- C4 amended: an instruction whose kind is none of the nine recognized
kinds passes through preprocessing unchanged; at dispatch, a kind that also
names no member of the assembler object (no other Assembler method, not the
top getter or constructor, nothing inherited from Object.prototype) crashes
with the undefined-call TypeError of invoking undefined, while a kind that
does name a member invokes that member with the key and payload as shifted
arguments; in no case is the defined UnrecognizedInstructionKind fatal
error of the specification ever produced. -/
theorem c4_unrecognized_kind_crashes
    (fn : String → String) (ov : Val → String → Val) (s : AState) (i : Instr)
    (h : i.type ∉ (["simple", "buffer", "value", "object", "array",
      "closeObject", "closeArray", "flush", "skipped"] : List String))
    (hm : i.type ∉ memberNames) :
    dispatchInstr fn ov s i = .error (.notAFunction i.type) := by
  simp only [List.mem_cons, List.not_mem_nil, or_false, not_or] at h
  simp only [memberNames, List.mem_cons, List.not_mem_nil, or_false, not_or] at hm
  obtain ⟨h1, h2, h3, h4, h5, h6, h7, h8, h9⟩ := h
  obtain ⟨g1, g2, g3, g4, g5, g6, g7, g8, g9, g10, g11, g12, g13, g14, g15, g16,
    g17, g18, g19, g20, g21, g22, g23, g24⟩ := hm
  simp [dispatchInstr, dispatchMember, dispatchMember2, dispatchProto,
    h1, h2, h3, h4, h5, h6, h7, h8, h9, g1, g2, g3, g4, g5,
    g6, g7, g8, g9, g10, g11, g12, g13, g14, g15, g16, g17, g18, g19, g20, g21,
    g22, g23, g24]

/-- C4 witness: the amended theorem applied to the concrete kind wat, which
is neither an instruction kind nor the name of any member. -/
theorem c4_unrecognized_kind_crashes_witness :
    dispatchInstr id (fun v _ => v) initState ⟨"wat", "", ""⟩ =
      .error (.notAFunction "wat") :=
  c4_unrecognized_kind_crashes id (fun v _ => v) initState ⟨"wat", "", ""⟩
    (by decide) (by decide)

/-- C5: evaluation at the failing input.  A skipped instruction is not
dropped by the preprocessing pass: it falls into the default case, is pushed
through to the normalized stream and clears the anchor, so the stream value
a x, skipped, buffer b, flush normalizes with the skipped instruction
present and the buffer emitted standalone, while the same stream without the
skipped instruction merges the buffer into the value payload instead. -/
theorem c5_skipped_passthrough :
    preprocessList [⟨"value", "a", "x"⟩, ⟨"skipped", "", ""⟩,
        ⟨"buffer", "", "b"⟩, ⟨"flush", "", ""⟩] =
      [⟨"value", "a", "x"⟩, ⟨"skipped", "", ""⟩, ⟨"buffer", "", "b"⟩] ∧
    preprocessList [⟨"value", "a", "x"⟩, ⟨"buffer", "", "b"⟩, ⟨"flush", "", ""⟩] =
      [⟨"value", "a", "xb"⟩] := by
  constructor
  · decide
  · decide

/-- C6 counterexample: before an object instruction, a pending buffer with
an existing non-simple anchor (value a x) is emitted as a standalone buffer
instruction; the claim says the flush merge rule applies, which would have
appended b to the anchor payload giving value a xb. -/
theorem c6_counterexample :
    preprocessList [⟨"value", "a", "x"⟩, ⟨"buffer", "", "b"⟩, ⟨"object", "o", ""⟩] =
      [⟨"value", "a", "x"⟩, ⟨"buffer", "", "b"⟩, ⟨"object", "o", ""⟩] ∧
    preprocessList [⟨"value", "a", "x"⟩, ⟨"buffer", "", "b"⟩, ⟨"object", "o", ""⟩] ≠
      [⟨"value", "a", "xb"⟩, ⟨"object", "o", ""⟩] := by
  constructor
  · decide
  · decide

/-- C6 amended: on a structural instruction (object, array, closeObject,
closeArray) the preprocessor emits the pending merged buffer as a standalone
buffer instruction exactly when it is non-blank after trimming, leaves every
previously emitted instruction (in particular the anchor payload) untouched,
clears the anchor and the buffer, and passes the instruction through; at end
of stream it likewise emits the non-blank merged buffer standalone and never
merges it into the anchor. -/
theorem c6_structural_flush_standalone :
    (∀ (fuel : Nat) (p : List Instr) (lv : Option Nat) (buf : List String)
        (i : Instr) (rest : List Instr),
      (i.type = "object" ∨ i.type = "array" ∨ i.type = "closeObject" ∨
        i.type = "closeArray") →
      (preprocessGo (fuel + 1) ⟨p, lv, buf⟩ (i :: rest)).1 =
        (preprocessGo fuel
          ⟨(if !(trimStr (mergeBuffer buf) == "") then p ++ [bufInstr (mergeBuffer buf)] else p)
              ++ [i], none, []⟩ rest).1)
    ∧ ∀ (fuel : Nat) (p : List Instr) (lv : Option Nat) (buf : List String),
      (preprocessGo fuel ⟨p, lv, buf⟩ []).1 =
        ⟨if !(trimStr (mergeBuffer buf) == "") then p ++ [bufInstr (mergeBuffer buf)] else p,
         lv, buf⟩ := by
  constructor
  · intro fuel p lv buf i rest ht
    rcases ht with ht | ht | ht | ht <;> simp [preprocessGo, ht]
  · intro fuel p lv buf
    cases fuel <;> simp [preprocessGo] <;> split <;> simp

/-- C6 witness: the amended theorem applied to a concrete pending buffer and
a concrete closeObject instruction. -/
theorem c6_structural_flush_standalone_witness :
    (preprocessGo 1 ⟨[⟨"value", "a", "x"⟩], some 0, ["b"]⟩ [⟨"closeObject", "", ""⟩]).1 =
      (preprocessGo 0
        ⟨(if !(trimStr (mergeBuffer ["b"]) == "") then
            [⟨"value", "a", "x"⟩] ++ [bufInstr (mergeBuffer ["b"])]
          else [⟨"value", "a", "x"⟩]) ++ [⟨"closeObject", "", ""⟩], none, []⟩ []).1 :=
  c6_structural_flush_standalone.1 0 [⟨"value", "a", "x"⟩] (some 0) ["b"]
    ⟨"closeObject", "", ""⟩ [] (by simp)

/-- C7 counterexample: preprocessing is not idempotent, because the buffer
merge strips one line-leading backslash per pass.  A single buffer
instruction whose payload starts with two backslashes normalizes to one
backslash on the first pass and loses another on the second. -/
theorem c7_counterexample :
    preprocessList (preprocessList [⟨"buffer", "", "\\\\x"⟩]) ≠
      preprocessList [⟨"buffer", "", "\\\\x"⟩] := by
  decide

/-- Merging an empty buffer yields the empty string. -/
theorem mergeBuffer_nil : mergeBuffer [] = "" := rfl

/-- Trimming the empty string yields the empty string. -/
theorem trimStr_empty : trimStr "" = "" := rfl

/-- An absent anchor has no kind. -/
theorem anchorType_none (p : List Instr) : anchorType p none = none := rfl

/-- Kind of an anchor that points just past the emitted list, right where
the next instruction is appended. -/
theorem anchorType_append (p : List Instr) (i : Instr) :
    anchorType (p ++ [i]) (some p.length) = some i.type := by
  simp [anchorType]

/-- Identity of the preprocessing loop on streams of plain kinds (value and
the four structural kinds), starting from an empty buffer and an anchor that
is absent or points at a value instruction: every instruction passes through
unchanged. -/
theorem preprocessGo_plain_id :
    ∀ (l : List Instr) (p : List Instr) (lv : Option Nat) (fuel : Nat),
      l.length ≤ fuel →
      (∀ i ∈ l, i.type = "value" ∨ i.type = "object" ∨ i.type = "array" ∨
        i.type = "closeObject" ∨ i.type = "closeArray") →
      anchorType p lv ≠ some "simple" →
      (preprocessGo fuel ⟨p, lv, []⟩ l).1.processed = p ++ l := by
  intro l
  induction l with
  | nil =>
    intro p lv fuel _ _ _
    cases fuel <;> simp [preprocessGo, mergeBuffer_nil, trimStr_empty]
  | cons i rest ih =>
    intro p lv fuel hfuel hk ha
    match fuel, hfuel with
    | fuel + 1, hfuel =>
      have hrest : ∀ j ∈ rest, j.type = "value" ∨ j.type = "object" ∨ j.type = "array" ∨
          j.type = "closeObject" ∨ j.type = "closeArray" :=
        fun j hj => hk j (List.mem_cons_of_mem i hj)
      have hlen : rest.length ≤ fuel := Nat.lt_succ_iff.mp (Nat.lt_of_lt_of_le (Nat.lt_succ_self _) hfuel)
      have hA : (anchorType p lv == some "simple") = false := beq_eq_false_iff_ne.mpr ha
      rcases hk i (List.mem_cons_self i rest) with ht | ht | ht | ht | ht
      · have := ih (p ++ [i]) (some p.length) fuel hlen hrest
          (by rw [anchorType_append, ht]; simp)
        simp only [preprocessGo, ht, mergeBuffer_nil, trimStr_empty, hA] at this ⊢
        simpa using this
      all_goals
        have := ih (p ++ [i]) none fuel hlen hrest (by rw [anchorType_none]; simp)
        simp only [preprocessGo, ht, mergeBuffer_nil, trimStr_empty] at this ⊢
        simpa using this

/-- C7 amended: the preprocessing pass is the identity, hence idempotent, on
streams consisting only of value, object, array, closeObject and closeArray
instructions; in general it is not idempotent because each pass strips a
further line-leading backslash from merged buffer payloads. -/
theorem c7_idempotent_on_plain_streams :
    ∀ l : List Instr,
      (∀ i ∈ l, i.type = "value" ∨ i.type = "object" ∨ i.type = "array" ∨
        i.type = "closeObject" ∨ i.type = "closeArray") →
      preprocessList l = l ∧ preprocessList (preprocessList l) = preprocessList l := by
  intro l h
  have h1 : preprocessList l = l := by
    have := preprocessGo_plain_id l [] none l.length le_rfl h (by rw [anchorType_none]; simp)
    simpa [preprocessList, preprocessT] using this
  exact ⟨h1, by rw [h1, h1]⟩

/-- C7 witness: the amended theorem applied to a concrete two-instruction
plain stream. -/
theorem c7_idempotent_on_plain_streams_witness :
    preprocessList [⟨"value", "a", "x"⟩, ⟨"object", "o", ""⟩] =
        [⟨"value", "a", "x"⟩, ⟨"object", "o", ""⟩] ∧
      preprocessList (preprocessList [⟨"value", "a", "x"⟩, ⟨"object", "o", ""⟩]) =
        preprocessList [⟨"value", "a", "x"⟩, ⟨"object", "o", ""⟩] :=
  c7_idempotent_on_plain_streams [⟨"value", "a", "x"⟩, ⟨"object", "o", ""⟩] (by decide)

/-- C8 counterexample: the read-only lookup throws.  Looking up a.b.c in the
mapping where a holds the scalar string x applies the JS in operator to that
string at the non-terminal segment b, a TypeError, instead of returning
absent as the claim states. -/
theorem c8_counterexample :
    getPath id [.obj [("a", .str "x")]] (.ref 0) "a.b.c" = .error .typeError := by
  decide

/-- Safety of the getPath loop when every traversed non-terminal segment
resolves to a heap object: the traversal returns without an error. -/
theorem getPathGo_ok_of_nonTerminalObjs :
    ∀ (ks : List String) (h : Heap) (branch : Val) (t : String),
      nonTerminalObjs h branch ks = true →
      ∃ r, getPathGo h branch ks t = .ok r := by
  intro ks
  induction ks with
  | nil => intro h branch t _; exact ⟨_, rfl⟩
  | cons k rest ih =>
    intro h branch t hw
    cases branch with
    | str s => simp [nonTerminalObjs] at hw
    | num n => simp [nonTerminalObjs] at hw
    | ref i =>
      cases hnode : h[i]? with
      | none => exact ⟨none, by simp [getPathGo, hnode]⟩
      | some nd =>
        cases nd with
        | obj fs =>
          cases hget : objGet fs k with
          | none => exact ⟨none, by simp [getPathGo, hnode, hget]⟩
          | some v =>
            have hw' : nonTerminalObjs h v rest = true := by
              simpa [nonTerminalObjs, hnode, hget] using hw
            obtain ⟨r, hr⟩ := ih h v t hw'
            exact ⟨r, by simp [getPathGo, hnode, hget, hr]⟩
        | arr ty es =>
          cases hk : (k == "length") with
          | true =>
            have hw' : nonTerminalObjs h (.num es.length) rest = true := by
              simpa [nonTerminalObjs, hnode, hk] using hw
            obtain ⟨r, hr⟩ := ih h (.num es.length) t hw'
            exact ⟨r, by simp [getPathGo, hnode, hk, hr]⟩
          | false =>
            cases hn : strToNat? k with
            | none => exact ⟨none, by simp [getPathGo, hnode, hk, hn]⟩
            | some n =>
              cases he : es[n]? with
              | none => exact ⟨none, by simp [getPathGo, hnode, hk, hn, he]⟩
              | some v =>
                have hw' : nonTerminalObjs h v rest = true := by
                  simpa [nonTerminalObjs, hnode, hk, hn, he] using hw
                obtain ⟨r, hr⟩ := ih h v t hw'
                exact ⟨r, by simp [getPathGo, hnode, hk, hn, he, hr]⟩

/-- C8 amended: the read-only lookup returns without throwing whenever every
non-terminal segment it actually traverses resolves to a heap object (a
missing non-terminal segment ends the traversal with absent and is allowed);
the counterexample shows the hypothesis is necessary, since a scalar string
at a non-terminal segment makes the lookup throw a TypeError instead of
returning absent. -/
theorem c8_get_safe_on_mapping_paths :
    ∀ (fn : String → String) (h : Heap) (v : Val) (kp : String),
      nonTerminalObjs h v ((normalizeKeypath fn kp).dropLast) = true →
      ∃ r, getPath fn h v kp = .ok r := by
  intro fn h v kp hw
  cases hl : (normalizeKeypath fn kp).getLast? with
  | none =>
    exact ⟨if valTruthy v then propGet h v "undefined" else some v, by simp [getPath, hl]⟩
  | some t =>
    obtain ⟨r, hr⟩ := getPathGo_ok_of_nonTerminalObjs ((normalizeKeypath fn kp).dropLast) h v t hw
    exact ⟨r, by simp [getPath, hl, hr]⟩

/-- C8 witness: the amended theorem applied to a concrete heap in which the
single non-terminal segment of the keypath a.b resolves to a mapping. -/
theorem c8_get_safe_on_mapping_paths_witness :
    ∃ r, getPath id [.obj [("a", .ref 1)], .obj [("b", .str "1")]] (.ref 0) "a.b" = .ok r :=
  c8_get_safe_on_mapping_paths id [.obj [("a", .ref 1)], .obj [("b", .str "1")]]
    (.ref 0) "a.b" (by decide)

/-- C9 counterexample: assembling array +notes then value .foo bar appends
to the freeform sequence a record whose tag is the raw key .foo; the claim
requires the stored tag to be the key with its leading dot stripped, which
would be foo. -/
theorem c9_counterexample :
    (assembleT idOptions [⟨"array", "+notes", ""⟩, ⟨"value", ".foo", "bar"⟩]).1 =
      Except.ok ⟨[.obj [("notes", .ref 2)], .arr .untyped [],
                  .arr .freeform [.ref 3],
                  .obj [("type", .str ".foo"), ("value", .str "bar")]], [0, 2]⟩ ∧
    stripTag ".foo" = "foo" ∧ (".foo" : String) ≠ "foo" := by
  refine ⟨by decide, by decide, by decide⟩

/-- C9 amended: a record appended to a freeform sequence through addToArray
stores as tag the key with its leading run of dot and plus characters
stripped, while a record appended through the freeform branch of the value
handler stores the raw key as tag. -/
theorem c9_freeform_tags :
    (∀ (fn : String → String) (ov : Val → String → Val) (h : Heap) (target : Nat)
        (key : String) (v : Val) (es : List Val),
      h[target]? = some (Node.arr ArrType.freeform es) →
      addToArray fn ov h target key v =
        Except.ok
          ((h ++ [Node.obj [("type", Val.str (stripTag key)), ("value", trimIfStr v)]]).set target
            (Node.arr ArrType.freeform (es ++ [Val.ref h.length]))))
    ∧ ∀ (fn : String → String) (ov : Val → String → Val) (s : AState) (key v : String)
        (es : List Val),
      s.heap[topId s]? = some (Node.arr ArrType.freeform es) →
      valueH fn ov s key v =
        Except.ok
          ⟨((s.heap ++ [Node.obj [("type", Val.str key), ("value", Val.str (trimStr v))]]).set (topId s)
              (Node.arr ArrType.freeform (es ++ [Val.ref s.heap.length]))),
           s.stack⟩ := by
  constructor
  · intro fn ov h target key v es ht
    have hlt : target < h.length := by
      by_contra hge
      rw [List.getElem?_eq_none (Nat.le_of_not_lt hge)] at ht
      exact absurd ht (by simp)
    have happ : (h ++ [Node.obj [("type", Val.str (stripTag key)), ("value", trimIfStr v)]])[target]? =
        some (Node.arr ArrType.freeform es) := by
      rw [List.getElem?_append]
      rw [if_pos hlt]
      exact ht
    simp [addToArray, arrTypeOf, ht, alloc, pushElem, happ]
  · intro fn ov s key v es ht
    have hlt : topId s < s.heap.length := by
      by_contra hge
      rw [List.getElem?_eq_none (Nat.le_of_not_lt hge)] at ht
      exact absurd ht (by simp)
    have happ : (s.heap ++ [Node.obj [("type", Val.str key), ("value", Val.str (trimStr v))]])[topId s]? =
        some (Node.arr ArrType.freeform es) := by
      rw [List.getElem?_append]
      rw [if_pos hlt]
      exact ht
    simp [valueH, arrTypeOf, ht, alloc, pushElem, happ]

/-- C9 witness: the amended statement for addToArray applied to a concrete
freeform array and the concrete key .foo, whose stored tag is foo. -/
theorem c9_freeform_tags_witness :
    addToArray id (fun v _ => v) [Node.obj [], Node.arr ArrType.freeform []] 1 ".foo"
        (Val.str " bar ") =
      Except.ok
        (([Node.obj [], Node.arr ArrType.freeform []] ++
            [Node.obj [("type", Val.str (stripTag ".foo")), ("value", trimIfStr (Val.str " bar "))]]).set 1
          (Node.arr ArrType.freeform ([] ++ [Val.ref 2]))) :=
  c9_freeform_tags.1 id (fun v _ => v) [Node.obj [], Node.arr ArrType.freeform []] 1 ".foo"
    (Val.str " bar ") [] (by decide)

/-- C10: the document produced by assembly does not depend on the verbose
option; verbose only selects the diagnostic trace component. -/
theorem c10_verbose_independent (b b' : Bool) (fn : String → String)
    (ov : Val → String → Val) (l : List Instr) :
    (assembleT ⟨b, fn, ov⟩ l).1 = (assembleT ⟨b', fn, ov⟩ l).1 := rfl

end Betty
